import Mathlib

/-!
Verification of the saga-pattern orchestrator and its compensation strategies,
shallowly embedded from the Go sources of the repository.

Embedding conventions:
* A Go `error` value is modelled by the inductive type `GoErr`; `nil` errors are
  `Option.none`.  `fmt.Errorf("...: %w", err)` is `GoErr.wrap`, the two-`%w`
  form used by `Saga.Execute` is `GoErr.wrap2`, and the `*CompensationError`
  struct is the `GoErr.compensationError` constructor (a Go type assertion only
  inspects the top-level dynamic type, hence only that constructor).
* A step's compensate callback is modelled by an oracle
  `comp : Nat → Nat → Option GoErr`: `comp i k` is the outcome of the k-th
  invocation (0-based) of step i's inverse action within one strategy run.
  Forward actions are invoked at most once, so a `StepSpec` carries a single
  outcome.
* `context.Context` cancellation is modelled by `GoContext.doneFrom`: the
  context is observed as done at every backoff-select event whose global
  sequence number is ≥ `doneFrom` (cancellation is monotone in time).  Each
  completed backoff wait advances the event clock.
* `time.Duration` is an `Int` (nanoseconds).  The float64 expression
  `time.Duration(float64(backoff) * BackoffMultiple)` is modelled as exact
  rational multiplication followed by truncation toward zero (`durTrunc`);
  float64 rounding error is idealised away.
* State-store writes (`SaveState`) always succeed in the model and are recorded
  in a list of snapshots; json marshalling and timestamps are elided.
-/

/-- Saga status constants, from the `SagaStatus` declarations in the
state-aware saga revision (`src/unnamed/part_002`): EXECUTING, COMPENSATING,
COMPLETE, FAILED. -/
inductive SagaStatus where
  | executing
  | compensating
  | complete
  | failed
  deriving DecidableEq, Repr

/-- Go error values, as produced by the saga code.  `msg` is a plain error
(`errors.New` or an arbitrary step error), `contextCanceled` is the
`context.Canceled` sentinel returned by `ctx.Err()`, `wrap` is
`fmt.Errorf("<text>: %w", cause)`, `wrap2` is the double-wrap
`fmt.Errorf("execution failed: %w, compensation failed: %w", c1, c2)`, and
`compensationError` is the `*CompensationError` struct of
`src/saga-client/compensation_strategy.go` (its `Failures` entries carry
step name, underlying error and attempt count; the `Success` field is always
false for stored failures and is elided). -/
inductive GoErr where
  | msg (s : String)
  | contextCanceled
  | wrap (pre : String) (cause : GoErr)
  | wrap2 (pre : String) (cause1 cause2 : GoErr)
  | compensationError (message : String) (failures : List (String × Option GoErr × Int))

/-- `IsCompensationError`, `src/saga-client/compensation_strategy.go` lines
186-191: a Go type assertion `err.(*CompensationError)`, which matches only the
top-level dynamic type and never unwraps. -/
def IsCompensationError : Option GoErr → Bool
  | some (.compensationError _ _) => true
  | _ => false

/-- `RetryConfig`, `src/saga-client/compensation_strategy.go` lines 27-32.
`MaxRetries` is a Go `int`, the two backoff fields are `time.Duration`
(integer nanoseconds) and `BackoffMultiple` is a float64 modelled as ℚ. -/
structure RetryConfig where
  MaxRetries : Int
  InitialBackoff : Int
  MaxBackoff : Int
  BackoffMultiple : ℚ
  deriving DecidableEq, Repr

/-- `DefaultRetryConfig`, `src/saga-client/compensation_strategy.go` lines
35-42: 3 retries, 1s initial backoff, 30s cap, multiple 2.0. -/
def DefaultRetryConfig : RetryConfig :=
  { MaxRetries := 3
    InitialBackoff := 1000000000
    MaxBackoff := 30000000000
    BackoffMultiple := 2 }

/-- Model of `context.Context` for the backoff select: the context is done at
every wait event numbered ≥ `doneFrom` (`none` = never cancelled). -/
structure GoContext where
  doneFrom : Option Nat
  deriving DecidableEq, Repr

/-- Whether `ctx.Done()` fires at the wait event numbered `w`. -/
def ctxDoneAt (ctx : GoContext) (w : Nat) : Bool :=
  match ctx.doneFrom with
  | none => false
  | some d => decide (d ≤ w)

/-- Go conversion `time.Duration(q)` of a float64 value: truncation toward
zero. -/
def durTrunc (q : ℚ) : Int :=
  if q < 0 then ⌈q⌉ else ⌊q⌋

/-- The backoff update at the end of one retry iteration,
`src/saga-client/compensation_strategy.go` lines 88-92:
`backoff = time.Duration(float64(backoff) * BackoffMultiple)` capped at
`MaxBackoff`. -/
def nextBackoff (cfg : RetryConfig) (b : Int) : Int :=
  let nb := durTrunc ((b : ℚ) * cfg.BackoffMultiple)
  if nb > cfg.MaxBackoff then cfg.MaxBackoff else nb

/-- The backoff value in force at the k-th wait (0-based) of one
`compensateStepWithRetry` run that starts from backoff `b`. -/
def backoffFrom (cfg : RetryConfig) (b : Int) : Nat → Int
  | 0 => b
  | k + 1 => nextBackoff cfg (backoffFrom cfg b k)

/-- `backoffFrom` started at `InitialBackoff`, as `compensateStepWithRetry`
does. -/
def backoffIter (cfg : RetryConfig) (k : Nat) : Int :=
  backoffFrom cfg cfg.InitialBackoff k

/-- Result of one `compensateStepWithRetry` run for a single step:
the returned error (`none` = success), the number of times the step's inverse
action was invoked, the list of completed backoff waits in order, and the
wait-event clock after the run. -/
structure StepRun where
  err : Option GoErr
  invocations : Nat
  waits : List Int
  clock : Nat

/-- The retry loop body of `compensateStepWithRetry`,
`src/saga-client/compensation_strategy.go` lines 67-97.
`fuel` is the number of attempts still allowed (the Go loop runs for
`attempt = 0 .. MaxRetries`, so it starts at `(MaxRetries+1).toNat`; with a
negative `MaxRetries` the loop body never runs and `lastErr` is still `nil`).
On a failed attempt with fuel left, the select at wait event `w` either
observes the cancelled context (returning the wrapped `ctx.Err()`) or
completes the wait of the current backoff and retries with the updated
backoff. -/
def compensateAttempts (cfg : RetryConfig) (compi : Nat → Option GoErr)
    (ctx : GoContext) : Nat → Nat → Int → Nat → StepRun
  | 0, _, _, w => ⟨none, 0, [], w⟩
  | fuel + 1, attempt, backoff, w =>
    match compi attempt with
    | none => ⟨none, 1, [], w⟩
    | some e =>
      if fuel = 0 then
        ⟨some e, 1, [], w⟩
      else if ctxDoneAt ctx w then
        ⟨some (.wrap "context cancelled during retry" .contextCanceled), 1, [], w⟩
      else
        let t := compensateAttempts cfg compi ctx fuel (attempt + 1)
          (nextBackoff cfg backoff) (w + 1)
        ⟨t.err, t.invocations + 1, backoff :: t.waits, t.clock⟩

/-- `RetryStrategy.compensateStepWithRetry`,
`src/saga-client/compensation_strategy.go` lines 67-97, started with
`backoff := InitialBackoff` at wait-event clock `w`. -/
def compensateStepWithRetry (cfg : RetryConfig) (compi : Nat → Option GoErr)
    (ctx : GoContext) (w : Nat) : StepRun :=
  compensateAttempts cfg compi ctx (cfg.MaxRetries + 1).toNat 0 cfg.InitialBackoff w

/-- The read-only saga view a compensation strategy uses: the step names and
the per-step inverse-action oracle (`comp i k` = outcome of the k-th invocation
of step i's `Compensate` callback within the strategy run). -/
structure CompEnv where
  name : Nat → String
  comp : Nat → Nat → Option GoErr

/-- Result of one strategy `Compensate` run: returned error, list of step
indices whose inverse action was invoked (in invocation order, with
multiplicity), completed backoff waits, and final wait-event clock. -/
structure StratRun where
  err : Option GoErr
  calls : List Nat
  waits : List Int
  clock : Nat

/-- Loop of `RetryStrategy.Compensate`,
`src/saga-client/compensation_strategy.go` lines 52-65, over the remaining
index list: run the retry helper for the head step; on error wrap it as
`"compensation failed for step <name> after <MaxRetries+1> attempts"` and stop;
on success continue with the tail. -/
def retryCompensateAux (cfg : RetryConfig) (env : CompEnv) (ctx : GoContext) :
    List Nat → Nat → StratRun
  | [], w => ⟨none, [], [], w⟩
  | i :: rest, w =>
    let r := compensateStepWithRetry cfg (env.comp i) ctx w
    match r.err with
    | some e =>
      ⟨some (.wrap ("compensation failed for step " ++ env.name i ++ " after " ++
          toString (cfg.MaxRetries + 1) ++ " attempts") e),
        List.replicate r.invocations i, r.waits, r.clock⟩
    | none =>
      let t := retryCompensateAux cfg env ctx rest r.clock
      ⟨t.err, List.replicate r.invocations i ++ t.calls, r.waits ++ t.waits, t.clock⟩

/-- `RetryStrategy.Compensate` for a forward pass that failed at step index
`f`: walks indices `f-1, f-2, …, 0`. -/
def retryCompensate (cfg : RetryConfig) (env : CompEnv) (ctx : GoContext)
    (f : Nat) : StratRun :=
  retryCompensateAux cfg env ctx (List.range f).reverse 0

/-- Result of one `ContinueAllStrategy.Compensate` run.  `results` records,
for each processed index in loop order, the error returned by the retry helper
for that step (the per-iteration `err` local of the Go loop); `failures` is the
accumulated `compensationErrors` slice (step name, stored error, attempts). -/
structure ContinueAllRun where
  err : Option GoErr
  calls : List Nat
  waits : List Int
  clock : Nat
  results : List (Nat × Option GoErr)
  failures : List (String × Option GoErr × Int)

/-- Loop of `ContinueAllStrategy.Compensate`,
`src/saga-client/compensation_strategy.go` lines 111-134: run the retry helper
for every remaining index regardless of outcome, appending each failure as a
`CompensationResult` with `Attempts = MaxRetries + 1`. -/
def continueAllAux (cfg : RetryConfig) (env : CompEnv) (ctx : GoContext) :
    List Nat → Nat → ContinueAllRun
  | [], w => ⟨none, [], [], w, [], []⟩
  | i :: rest, w =>
    let r := compensateStepWithRetry cfg (env.comp i) ctx w
    let t := continueAllAux cfg env ctx rest r.clock
    { err := none
      calls := List.replicate r.invocations i ++ t.calls
      waits := r.waits ++ t.waits
      clock := t.clock
      results := (i, r.err) :: t.results
      failures :=
        (match r.err with
          | some e => [(env.name i, some e, cfg.MaxRetries + 1)]
          | none => []) ++ t.failures }

/-- `ContinueAllStrategy.Compensate`,
`src/saga-client/compensation_strategy.go` lines 111-145: after the loop, if
any failures accumulated return a `*CompensationError`, else nil. -/
def continueAllCompensate (cfg : RetryConfig) (env : CompEnv) (ctx : GoContext)
    (f : Nat) : ContinueAllRun :=
  let t := continueAllAux cfg env ctx (List.range f).reverse 0
  { t with
    err :=
      if t.failures.isEmpty then none
      else some (.compensationError "one or more compensation steps failed" t.failures) }

/-- Result of one `FailFastStrategy.Compensate` run (the state-persisting
revision of `src/unnamed/part_007`).  `compensatedSteps` is the final
`saga.State.CompensatedSteps` slice; `saves` records every `saga.SaveState`
call as the pair (CompensatedSteps, CompensatedStatus) at that moment, in
order. -/
structure FailFastRun where
  err : Option GoErr
  calls : List Nat
  compensatedSteps : List Nat
  saves : List (List Nat × SagaStatus)

/-- Loop of `FailFastStrategy.Compensate`, `src/unnamed/part_007` lines
156-172: for each index in reverse, the index is appended to
`CompensatedSteps` first, then the inverse action is invoked once; on error
`CompensatedStatus = failed` is saved and the wrapped error returned, on
success `CompensatedStatus = compensating` is saved and the loop continues;
after the last index `CompensatedStatus = complete` is saved. -/
def failFastAux (env : CompEnv) : List Nat → List Nat → FailFastRun
  | [], cs => ⟨none, [], cs, [(cs, .complete)]⟩
  | i :: rest, cs =>
    let cs2 := cs ++ [i]
    match env.comp i 0 with
    | some e =>
      ⟨some (.wrap ("compensation failed for step " ++ env.name i) e),
        [i], cs2, [(cs2, .failed)]⟩
    | none =>
      let t := failFastAux env rest cs2
      ⟨t.err, i :: t.calls, t.compensatedSteps, (cs2, .compensating) :: t.saves⟩

/-- `FailFastStrategy.Compensate` for a forward pass that failed at step index
`f`: walks indices `f-1, f-2, …, 0` starting from an empty
`CompensatedSteps`. -/
def failFastCompensate (env : CompEnv) (f : Nat) : FailFastRun :=
  failFastAux env (List.range f).reverse []

/-- One saga step as the orchestrator sees it: its name and the outcome of the
single invocation of its forward action (`none` = success). -/
structure StepSpec where
  name : String
  exec : Option GoErr

/-- `SagaState`, `src/unnamed/part_002` lines 298-310 (Data blob and
timestamps elided; `ExecutedSteps`, `FailedStep` and `CompensatedSteps` hold
step names, as in that revision). -/
structure SagaState where
  SagaID : String
  TotalSteps : Nat
  CurrentStepIndex : Nat
  Status : SagaStatus
  ExecutedSteps : List String
  FailedStep : String
  CompensatedSteps : List String
  deriving DecidableEq, Repr

/-- The state `Saga.saveStepComplete` persists after forward step `i`
succeeds, `src/unnamed/part_002` lines 464-486. -/
def saveStepComplete (sagaID : String) (total : Nat) (executed : List String)
    (index : Nat) : SagaState :=
  ⟨sagaID, total, index, .executing, executed, "", []⟩

/-- The state `Saga.saveComplete` persists after the last step succeeds,
`src/unnamed/part_002` lines 439-462. -/
def saveComplete (sagaID : String) (total : Nat) (executed : List String)
    (compensated : List String) (index : Nat) : SagaState :=
  ⟨sagaID, total, index, .complete, executed, "", compensated⟩

/-- The state `Saga.saveSagaFailed` would persist on a forward failure,
`src/unnamed/part_002` lines 488-512 (note: it records the failed step's
name, and its only call site inside `Execute` is commented out). -/
def saveSagaFailed (sagaID : String) (total : Nat) (executed : List String)
    (compensated : List String) (index : Nat) (failedStep : String) : SagaState :=
  ⟨sagaID, total, index, .failed, executed, failedStep, compensated⟩

/-- Result of one `Saga.Execute` run: the returned error, the indices of
forward actions invoked in order, the indices of inverse actions invoked
during the run (via the compensation strategy), and every state persisted to
the state store, in order. -/
structure ExecRun where
  err : Option GoErr
  forwardCalls : List Nat
  inverseCalls : List Nat
  saves : List SagaState

/-- Loop of `Saga.Execute`, `src/unnamed/part_002` lines 388-418, over the
remaining steps, with `strat i` the run of the configured compensation
strategy for failed index `i` (the orchestrator's `s.compensate(ctx, i)`).
On a forward failure the strategy is invoked and the error returned with no
state save (the `saveSagaFailed` call is commented out in the source); on
success `saveStepComplete` is persisted; after the loop `saveComplete` is
persisted with an empty compensated list. -/
def executeAux (sagaID : String) (total : Nat) (strat : Nat → StratRun) :
    List StepSpec → Nat → List String → ExecRun
  | [], _, names =>
    ⟨none, [], [], [saveComplete sagaID total names [] total]⟩
  | sp :: rest, i, names =>
    match sp.exec with
    | some e =>
      let sr := strat i
      let finalErr :=
        match sr.err with
        | some ce => GoErr.wrap2 "execution failed, compensation failed" e ce
        | none => GoErr.wrap "saga failed and rolled back" e
      ⟨some finalErr, [i], sr.calls, []⟩
    | none =>
      let names2 := names ++ [sp.name]
      let t := executeAux sagaID total strat rest (i + 1) names2
      ⟨t.err, i :: t.forwardCalls, t.inverseCalls,
        saveStepComplete sagaID total names2 i :: t.saves⟩

/-- `Saga.Execute`, `src/unnamed/part_002` lines 388-418. -/
def executeGo (sagaID : String) (steps : List StepSpec)
    (strat : Nat → StratRun) : ExecRun :=
  executeAux sagaID steps.length strat steps 0 []

/-- The default strategy of `NewSaga` (FailFast), adapted to the orchestrator's
strategy slot. -/
def failFastStrat (env : CompEnv) (i : Nat) : StratRun :=
  let r := failFastCompensate env i
  ⟨r.err, r.calls, [], 0⟩

/-- A saga view whose every inverse action succeeds immediately. -/
def envAllOk : CompEnv :=
  ⟨fun i => "s" ++ toString i, fun _ _ => none⟩

/-- A saga view whose step 1 inverse action always fails and every other
inverse action succeeds immediately. -/
def envFail1 : CompEnv :=
  ⟨fun i => "s" ++ toString i, fun i _ => if i = 1 then some (.msg "boom") else none⟩

/-- A saga view whose step 0 inverse action always fails and every other
inverse action succeeds immediately. -/
def envFail0 : CompEnv :=
  ⟨fun i => "s" ++ toString i, fun i _ => if i = 0 then some (.msg "boom") else none⟩

/-- A context that is never cancelled. -/
def ctxNone : GoContext := ⟨none⟩

/-- A context that is already cancelled at the first backoff wait. -/
def ctxNow : GoContext := ⟨some 0⟩

/-- A small retry configuration: one retry, 10ns initial backoff, 100ns cap,
multiple 2. -/
def cfgTest : RetryConfig := ⟨1, 10, 100, 2⟩

/-- A retry configuration whose `InitialBackoff` exceeds its `MaxBackoff`. -/
def cfgCap : RetryConfig := ⟨2, 2, 1, 1⟩

/-- A retry configuration with a negative `MaxRetries`. -/
def cfgNeg : RetryConfig := ⟨-1, 10, 100, 2⟩

/-- Two forward steps that both succeed. -/
def stepsOk : List StepSpec := [⟨"A", none⟩, ⟨"B", none⟩]

/-- Two forward steps where the second one fails. -/
def stepsFailB : List StepSpec := [⟨"A", none⟩, ⟨"B", some (.msg "boom")⟩]

/-- One-step unfolding of the retry loop with fuel left. -/
theorem compensateAttempts_succ (cfg : RetryConfig) (compi : Nat → Option GoErr)
    (ctx : GoContext) (n a : Nat) (b : Int) (w : Nat) :
    compensateAttempts cfg compi ctx (n + 1) a b w =
      match compi a with
      | none => ⟨none, 1, [], w⟩
      | some e =>
        if n = 0 then ⟨some e, 1, [], w⟩
        else if ctxDoneAt ctx w then
          ⟨some (.wrap "context cancelled during retry" .contextCanceled), 1, [], w⟩
        else
          let t := compensateAttempts cfg compi ctx n (a + 1) (nextBackoff cfg b) (w + 1)
          ⟨t.err, t.invocations + 1, b :: t.waits, t.clock⟩ := rfl

/-- The retry helper invokes the inverse action at most `fuel` times. -/
theorem compensateAttempts_invocations_le (cfg : RetryConfig)
    (compi : Nat → Option GoErr) (ctx : GoContext) :
    ∀ fuel attempt backoff w,
      (compensateAttempts cfg compi ctx fuel attempt backoff w).invocations ≤ fuel := by
  intro fuel
  induction fuel with
  | zero => intro a b w; simp [compensateAttempts]
  | succ n ih =>
    intro a b w
    rw [compensateAttempts_succ]
    cases h : compi a with
    | none => simp
    | some e =>
      dsimp only
      by_cases hn : n = 0
      · simp [hn]
      · rw [if_neg hn]
        by_cases hc : ctxDoneAt ctx w
        · rw [if_pos hc]; simp
        · rw [if_neg hc]
          have := ih (a + 1) (nextBackoff cfg b) (w + 1)
          simp only []
          omega

/-- A context with `doneFrom = none` is never observed as done. -/
theorem ctxDoneAt_none (ctx : GoContext) (h : ctx.doneFrom = none) (w : Nat) :
    ctxDoneAt ctx w = false := by
  simp [ctxDoneAt, h]

/-- With at least one attempt allowed, the retry helper invokes the inverse
action at least once. -/
theorem compensateAttempts_invocations_pos (cfg : RetryConfig)
    (compi : Nat → Option GoErr) (ctx : GoContext) (n a : Nat) (b : Int) (w : Nat) :
    1 ≤ (compensateAttempts cfg compi ctx (n + 1) a b w).invocations := by
  rw [compensateAttempts_succ]
  cases compi a with
  | none => simp
  | some e =>
    dsimp only
    by_cases hn : n = 0
    · simp [hn]
    · rw [if_neg hn]
      by_cases hc : ctxDoneAt ctx w
      · rw [if_pos hc]
      · rw [if_neg hc]
        simp only []
        omega

/-- If the first attempt succeeds, the retry helper returns success after a
single invocation, no waits, and an unchanged clock. -/
theorem compensateAttempts_first_success (cfg : RetryConfig)
    (compi : Nat → Option GoErr) (ctx : GoContext) (n a : Nat) (b : Int) (w : Nat)
    (h : compi a = none) :
    compensateAttempts cfg compi ctx (n + 1) a b w = ⟨none, 1, [], w⟩ := by
  rw [compensateAttempts_succ, h]

/-- If every attempt fails and the context is never cancelled, the retry
helper exhausts its fuel: it returns an error and invokes the inverse action
exactly `fuel` times. -/
theorem compensateAttempts_all_fail (cfg : RetryConfig)
    (compi : Nat → Option GoErr) (ctx : GoContext)
    (hf : ∀ k, compi k ≠ none) (hc : ctx.doneFrom = none) :
    ∀ n a b w,
      (compensateAttempts cfg compi ctx (n + 1) a b w).err.isSome = true ∧
      (compensateAttempts cfg compi ctx (n + 1) a b w).invocations = n + 1 := by
  intro n
  induction n with
  | zero =>
    intro a b w
    cases h : compi a with
    | none => exact absurd h (hf a)
    | some e => rw [compensateAttempts_succ, h]; simp
  | succ m ih =>
    intro a b w
    cases h : compi a with
    | none => exact absurd h (hf a)
    | some e =>
      rw [compensateAttempts_succ, h]
      dsimp only
      rw [if_neg (Nat.succ_ne_zero m), ctxDoneAt_none ctx hc w]
      simp only [Bool.false_eq_true, if_false]
      have := ih (a + 1) (nextBackoff cfg b) (w + 1)
      refine ⟨this.1, ?_⟩
      show (compensateAttempts cfg compi ctx (m + 1) (a + 1) (nextBackoff cfg b)
        (w + 1)).invocations + 1 = m + 1 + 1
      omega

/-- Shifting the starting backoff by one update advances the backoff
sequence by one position. -/
theorem backoffFrom_shift (cfg : RetryConfig) (b : Int) :
    ∀ j, backoffFrom cfg (nextBackoff cfg b) j = backoffFrom cfg b (j + 1) := by
  intro j
  induction j with
  | zero => rfl
  | succ k ih => simp [backoffFrom, ih]

/-- Every completed wait recorded by the retry loop follows the backoff
sequence from its starting backoff: the j-th wait is `backoffFrom cfg b j`. -/
theorem compensateAttempts_waits_getD (cfg : RetryConfig)
    (compi : Nat → Option GoErr) (ctx : GoContext) :
    ∀ fuel a b w j,
      j < (compensateAttempts cfg compi ctx fuel a b w).waits.length →
      (compensateAttempts cfg compi ctx fuel a b w).waits.getD j 0 = backoffFrom cfg b j := by
  intro fuel
  induction fuel with
  | zero => intro a b w j hj; simp [compensateAttempts] at hj
  | succ n ih =>
    intro a b w j hj
    rw [compensateAttempts_succ] at hj ⊢
    cases h : compi a with
    | none => rw [h] at hj; simp at hj
    | some e =>
      rw [h] at hj
      dsimp only at hj ⊢
      by_cases hn : n = 0
      · rw [if_pos hn] at hj; simp at hj
      · rw [if_neg hn] at hj ⊢
        by_cases hc : ctxDoneAt ctx w
        · rw [if_pos hc] at hj; simp at hj
        · rw [if_neg hc] at hj ⊢
          simp only [] at hj ⊢
          cases j with
          | zero => simp [backoffFrom]
          | succ k =>
            simp only [List.length_cons, Nat.succ_lt_succ_iff] at hj
            simp only [List.getD_cons_succ]
            rw [ih (a + 1) (nextBackoff cfg b) (w + 1) k hj]
            exact backoffFrom_shift cfg b k

/-- With a negative `MaxRetries` the Go loop body never runs: the helper
returns success without a single invocation of the inverse action. -/
theorem compensateStepWithRetry_neg (cfg : RetryConfig) (h : cfg.MaxRetries < 0)
    (compi : Nat → Option GoErr) (ctx : GoContext) (w : Nat) :
    compensateStepWithRetry cfg compi ctx w = ⟨none, 0, [], w⟩ := by
  unfold compensateStepWithRetry
  have h0 : (cfg.MaxRetries + 1).toNat = 0 := by omega
  rw [h0]
  rfl

/-- With a nonnegative `MaxRetries`, the allowed attempt count is
`MaxRetries + 1 ≥ 1`. -/
theorem toNat_retries_succ (cfg : RetryConfig) (h : 0 ≤ cfg.MaxRetries) :
    (cfg.MaxRetries + 1).toNat = cfg.MaxRetries.toNat + 1 := by
  omega

/-- If the first attempt succeeds (and at least one attempt is allowed), the
helper succeeds with exactly one invocation, no waits, unchanged clock. -/
theorem compensateStepWithRetry_first_success (cfg : RetryConfig)
    (h : 0 ≤ cfg.MaxRetries) (compi : Nat → Option GoErr) (ctx : GoContext)
    (w : Nat) (hs : compi 0 = none) :
    compensateStepWithRetry cfg compi ctx w = ⟨none, 1, [], w⟩ := by
  unfold compensateStepWithRetry
  rw [toNat_retries_succ cfg h]
  exact compensateAttempts_first_success cfg compi ctx _ 0 _ w hs

/-- The helper never invokes a step's inverse action more than
`MaxRetries + 1` times. -/
theorem compensateStepWithRetry_invocations_le (cfg : RetryConfig)
    (compi : Nat → Option GoErr) (ctx : GoContext) (w : Nat) :
    (compensateStepWithRetry cfg compi ctx w).invocations ≤ (cfg.MaxRetries + 1).toNat :=
  compensateAttempts_invocations_le cfg compi ctx _ 0 _ w

/-- With at least one attempt allowed, the helper invokes the inverse action
at least once. -/
theorem compensateStepWithRetry_invocations_pos (cfg : RetryConfig)
    (h : 0 ≤ cfg.MaxRetries) (compi : Nat → Option GoErr) (ctx : GoContext) (w : Nat) :
    1 ≤ (compensateStepWithRetry cfg compi ctx w).invocations := by
  unfold compensateStepWithRetry
  rw [toNat_retries_succ cfg h]
  exact compensateAttempts_invocations_pos cfg compi ctx _ 0 _ w

/-- If every attempt of the step fails and the context is never cancelled,
the helper returns an error after exactly `MaxRetries + 1` invocations. -/
theorem compensateStepWithRetry_all_fail (cfg : RetryConfig)
    (h : 0 ≤ cfg.MaxRetries) (compi : Nat → Option GoErr) (ctx : GoContext) (w : Nat)
    (hf : ∀ k, compi k ≠ none) (hc : ctx.doneFrom = none) :
    (compensateStepWithRetry cfg compi ctx w).err.isSome = true ∧
    (compensateStepWithRetry cfg compi ctx w).invocations = (cfg.MaxRetries + 1).toNat := by
  unfold compensateStepWithRetry
  rw [toNat_retries_succ cfg h]
  exact compensateAttempts_all_fail cfg compi ctx hf hc _ 0 _ w

/-- The j-th completed backoff wait of a helper run equals the j-th element of
the backoff sequence started at `InitialBackoff`. -/
theorem compensateStepWithRetry_waits (cfg : RetryConfig)
    (compi : Nat → Option GoErr) (ctx : GoContext) (w j : Nat)
    (hj : j < (compensateStepWithRetry cfg compi ctx w).waits.length) :
    (compensateStepWithRetry cfg compi ctx w).waits.getD j 0 = backoffIter cfg j :=
  compensateAttempts_waits_getD cfg compi ctx _ 0 _ w j hj

/-- After one update, the backoff never exceeds `MaxBackoff` (the cap of
lines 90-92 of `compensation_strategy.go`). -/
theorem nextBackoff_le_max (cfg : RetryConfig) (b : Int) :
    nextBackoff cfg b ≤ cfg.MaxBackoff := by
  unfold nextBackoff
  dsimp only
  split
  · exact le_refl _
  · omega

/-- One backoff update is bounded by the exact (uncapped, untruncated)
product. -/
theorem nextBackoff_le_mul (cfg : RetryConfig) (hm : 0 ≤ cfg.BackoffMultiple)
    (b : Int) (hb : 0 ≤ b) :
    (nextBackoff cfg b : ℚ) ≤ (b : ℚ) * cfg.BackoffMultiple := by
  have hq : (0 : ℚ) ≤ (b : ℚ) * cfg.BackoffMultiple :=
    mul_nonneg (by exact_mod_cast hb) hm
  have ht : durTrunc ((b : ℚ) * cfg.BackoffMultiple) ≤ ⌊(b : ℚ) * cfg.BackoffMultiple⌋ := by
    unfold durTrunc
    rw [if_neg (not_lt.mpr hq)]
  have hfl : (⌊(b : ℚ) * cfg.BackoffMultiple⌋ : ℚ) ≤ (b : ℚ) * cfg.BackoffMultiple :=
    Int.floor_le _
  have hnb : nextBackoff cfg b ≤ durTrunc ((b : ℚ) * cfg.BackoffMultiple) := by
    unfold nextBackoff
    dsimp only
    split
    · omega
    · exact le_refl _
  calc (nextBackoff cfg b : ℚ) ≤ (⌊(b : ℚ) * cfg.BackoffMultiple⌋ : ℚ) := by
        exact_mod_cast le_trans hnb ht
    _ ≤ (b : ℚ) * cfg.BackoffMultiple := hfl

/-- Backoff values stay nonnegative under nonnegative configuration. -/
theorem backoffFrom_nonneg (cfg : RetryConfig) (hm : 0 ≤ cfg.BackoffMultiple)
    (hmax : 0 ≤ cfg.MaxBackoff) (b : Int) (hb : 0 ≤ b) :
    ∀ k, 0 ≤ backoffFrom cfg b k := by
  intro k
  induction k with
  | zero => exact hb
  | succ n ih =>
    show 0 ≤ nextBackoff cfg (backoffFrom cfg b n)
    have hq : (0 : ℚ) ≤ (backoffFrom cfg b n : ℚ) * cfg.BackoffMultiple :=
      mul_nonneg (by exact_mod_cast ih) hm
    unfold nextBackoff
    dsimp only
    split
    · exact hmax
    · unfold durTrunc
      rw [if_neg (not_lt.mpr hq)]
      exact Int.le_floor.mpr (by simpa using hq)

/-- The backoff sequence is bounded by the exact geometric sequence
`b · BackoffMultiple ^ k` under nonnegative configuration. -/
theorem backoffFrom_le_pow (cfg : RetryConfig) (hm : 0 ≤ cfg.BackoffMultiple)
    (hmax : 0 ≤ cfg.MaxBackoff) (b : Int) (hb : 0 ≤ b) :
    ∀ k, (backoffFrom cfg b k : ℚ) ≤ (b : ℚ) * cfg.BackoffMultiple ^ k := by
  intro k
  induction k with
  | zero => simp [backoffFrom]
  | succ n ih =>
    show (nextBackoff cfg (backoffFrom cfg b n) : ℚ) ≤ _
    have h1 := nextBackoff_le_mul cfg hm (backoffFrom cfg b n)
      (backoffFrom_nonneg cfg hm hmax b hb n)
    have h2 : (backoffFrom cfg b n : ℚ) * cfg.BackoffMultiple ≤
        ((b : ℚ) * cfg.BackoffMultiple ^ n) * cfg.BackoffMultiple :=
      mul_le_mul_of_nonneg_right ih hm
    calc (nextBackoff cfg (backoffFrom cfg b n) : ℚ)
        ≤ (backoffFrom cfg b n : ℚ) * cfg.BackoffMultiple := h1
      _ ≤ ((b : ℚ) * cfg.BackoffMultiple ^ n) * cfg.BackoffMultiple := h2
      _ = (b : ℚ) * cfg.BackoffMultiple ^ (n + 1) := by ring

/-- One-step unfolding of the `RetryStrategy.Compensate` loop. -/
theorem retryCompensateAux_cons (cfg : RetryConfig) (env : CompEnv)
    (ctx : GoContext) (i : Nat) (rest : List Nat) (w : Nat) :
    retryCompensateAux cfg env ctx (i :: rest) w =
      let r := compensateStepWithRetry cfg (env.comp i) ctx w
      match r.err with
      | some e =>
        ⟨some (.wrap ("compensation failed for step " ++ env.name i ++ " after " ++
            toString (cfg.MaxRetries + 1) ++ " attempts") e),
          List.replicate r.invocations i, r.waits, r.clock⟩
      | none =>
        let t := retryCompensateAux cfg env ctx rest r.clock
        ⟨t.err, List.replicate r.invocations i ++ t.calls, r.waits ++ t.waits, t.clock⟩ := rfl

/-- Every index invoked by the Retry strategy loop comes from its index
list. -/
theorem retryCompensateAux_calls_subset (cfg : RetryConfig) (env : CompEnv)
    (ctx : GoContext) :
    ∀ l w j, j ∈ (retryCompensateAux cfg env ctx l w).calls → j ∈ l := by
  intro l
  induction l with
  | nil => intro w j hj; simp [retryCompensateAux] at hj
  | cons i rest ih =>
    intro w j hj
    rw [retryCompensateAux_cons] at hj
    dsimp only at hj
    cases hr : (compensateStepWithRetry cfg (env.comp i) ctx w).err with
    | some e =>
      rw [hr] at hj
      dsimp only at hj
      rcases List.eq_of_mem_replicate hj with rfl
      exact List.mem_cons_self _ _
    | none =>
      rw [hr] at hj
      dsimp only at hj
      rcases List.mem_append.mp hj with hj1 | hj2
      · rcases List.eq_of_mem_replicate hj1 with rfl
        exact List.mem_cons_self _ _
      · exact List.mem_cons_of_mem i (ih _ j hj2)

/-- If every listed step's inverse action succeeds on its first attempt, the
Retry strategy loop succeeds and invokes each listed index exactly once, in
list order, with no waits. -/
theorem retryCompensateAux_all_success (cfg : RetryConfig) (env : CompEnv)
    (ctx : GoContext) (hM : 0 ≤ cfg.MaxRetries) :
    ∀ l w, (∀ i ∈ l, env.comp i 0 = none) →
      retryCompensateAux cfg env ctx l w = ⟨none, l, [], w⟩ := by
  intro l
  induction l with
  | nil => intro w _; rfl
  | cons i rest ih =>
    intro w hall
    rw [retryCompensateAux_cons]
    dsimp only
    rw [compensateStepWithRetry_first_success cfg hM (env.comp i) ctx w
      (hall i (List.mem_cons_self i rest))]
    dsimp only
    rw [ih w (fun j hj => hall j (List.mem_cons_of_mem i hj))]
    simp

/-- The Retry strategy loop never returns a `*CompensationError` (a Go type
assertion on its wrapped errors fails). -/
theorem retryCompensateAux_not_compErr (cfg : RetryConfig) (env : CompEnv)
    (ctx : GoContext) :
    ∀ l w, IsCompensationError (retryCompensateAux cfg env ctx l w).err = false := by
  intro l
  induction l with
  | nil => intro w; rfl
  | cons i rest ih =>
    intro w
    rw [retryCompensateAux_cons]
    dsimp only
    cases hr : (compensateStepWithRetry cfg (env.comp i) ctx w).err with
    | some e => rfl
    | none => exact ih _

/-- The Retry strategy loop invokes each step's inverse action at most
`MaxRetries + 1` times when the index list has no duplicates. -/
theorem retryCompensateAux_count (cfg : RetryConfig) (env : CompEnv)
    (ctx : GoContext) :
    ∀ l w j, l.Nodup →
      ((retryCompensateAux cfg env ctx l w).calls.count j) ≤ (cfg.MaxRetries + 1).toNat := by
  intro l
  induction l with
  | nil => intro w j _; simp [retryCompensateAux]
  | cons i rest ih =>
    intro w j hnd
    rw [retryCompensateAux_cons]
    dsimp only
    have hinv := compensateStepWithRetry_invocations_le cfg (env.comp i) ctx w
    cases hr : (compensateStepWithRetry cfg (env.comp i) ctx w).err with
    | some e =>
      dsimp only
      rw [List.count_replicate]
      split
      · exact hinv
      · exact Nat.zero_le _
    | none =>
      dsimp only
      rw [List.count_append, List.count_replicate]
      rcases List.nodup_cons.mp hnd with ⟨hni, hndr⟩
      by_cases hji : j = i
      · subst hji
        have hz : (retryCompensateAux cfg env ctx rest
            (compensateStepWithRetry cfg (env.comp j) ctx w).clock).calls.count j = 0 := by
          rw [List.count_eq_zero]
          intro hmem
          exact hni (retryCompensateAux_calls_subset cfg env ctx rest _ j hmem)
        rw [if_pos (beq_self_eq_true j), hz]
        omega
      · rw [if_neg (by simp only [beq_iff_eq]; exact Ne.symm hji)]
        have := ih (compensateStepWithRetry cfg (env.comp i) ctx w).clock j hndr
        omega

/-- If some listed step `j` permanently fails (every attempt errors, no
cancellation) while every listed step above it succeeds on its first attempt,
the Retry strategy loop returns an error, invokes step `j` exactly
`MaxRetries + 1` times, and never invokes any index below `j`. -/
theorem retryCompensateAux_fail_stop (cfg : RetryConfig) (env : CompEnv)
    (ctx : GoContext) (hM : 0 ≤ cfg.MaxRetries) (hc : ctx.doneFrom = none)
    (j : Nat) (hjf : ∀ k, env.comp j k ≠ none) :
    ∀ l w, l.Pairwise (· > ·) → j ∈ l →
      (∀ i ∈ l, j < i → env.comp i 0 = none) →
      (retryCompensateAux cfg env ctx l w).err.isSome = true ∧
      (∀ m, m < j → m ∉ (retryCompensateAux cfg env ctx l w).calls) ∧
      (retryCompensateAux cfg env ctx l w).calls.count j = (cfg.MaxRetries + 1).toNat := by
  intro l
  induction l with
  | nil => intro w _ hj _; simp at hj
  | cons i rest ih =>
    intro w hpw hj hup
    by_cases hij : i = j
    · subst hij
      have hall := compensateStepWithRetry_all_fail cfg hM (env.comp i) ctx w hjf hc
      rcases Option.isSome_iff_exists.mp hall.1 with ⟨e, he⟩
      rw [retryCompensateAux_cons]
      dsimp only
      rw [he]
      dsimp only
      refine ⟨rfl, ?_, ?_⟩
      · intro m hm hmem
        rcases List.eq_of_mem_replicate hmem with rfl
        exact lt_irrefl m hm
      · rw [List.count_replicate, if_pos (beq_self_eq_true i)]
        exact hall.2
    · have hjr : j ∈ rest := by
        rcases List.mem_cons.mp hj with h1 | h1
        · exact absurd h1.symm hij
        · exact h1
      have hgt : j < i := (List.pairwise_cons.mp hpw).1 j hjr
      have hsucc : env.comp i 0 = none := hup i (List.mem_cons_self _ _) hgt
      rw [retryCompensateAux_cons]
      dsimp only
      rw [compensateStepWithRetry_first_success cfg hM (env.comp i) ctx w hsucc]
      dsimp only
      have hihr := ih w (List.pairwise_cons.mp hpw).2 hjr
        (fun b hb hbgt => hup b (List.mem_cons_of_mem i hb) hbgt)
      refine ⟨hihr.1, ?_, ?_⟩
      · intro m hm hmem
        rcases List.mem_append.mp hmem with h1 | h1
        · rcases List.eq_of_mem_replicate h1 with rfl
          omega
        · exact hihr.2.1 m hm h1
      · rw [List.count_append, List.count_replicate,
          if_neg (by simp only [beq_iff_eq]; omega)]
        simpa using hihr.2.2

/-- One-step unfolding of the `ContinueAllStrategy.Compensate` loop. -/
theorem continueAllAux_cons (cfg : RetryConfig) (env : CompEnv)
    (ctx : GoContext) (i : Nat) (rest : List Nat) (w : Nat) :
    continueAllAux cfg env ctx (i :: rest) w =
      let r := compensateStepWithRetry cfg (env.comp i) ctx w
      let t := continueAllAux cfg env ctx rest r.clock
      { err := none
        calls := List.replicate r.invocations i ++ t.calls
        waits := r.waits ++ t.waits
        clock := t.clock
        results := (i, r.err) :: t.results
        failures :=
          (match r.err with
            | some e => [(env.name i, some e, cfg.MaxRetries + 1)]
            | none => []) ++ t.failures } := rfl

/-- The ContinueAll loop processes exactly its index list, in order, no matter
which steps fail. -/
theorem continueAllAux_results_map (cfg : RetryConfig) (env : CompEnv)
    (ctx : GoContext) :
    ∀ l w, (continueAllAux cfg env ctx l w).results.map Prod.fst = l := by
  intro l
  induction l with
  | nil => intro w; rfl
  | cons i rest ih =>
    intro w
    rw [continueAllAux_cons]
    dsimp only [List.map_cons]
    rw [ih]

/-- The ContinueAll loop returns `err = none` in its accumulator (the error
is only attached at top level). -/
theorem continueAllAux_err (cfg : RetryConfig) (env : CompEnv)
    (ctx : GoContext) :
    ∀ l w, (continueAllAux cfg env ctx l w).err = none := by
  intro l
  cases l with
  | nil => intro w; rfl
  | cons i rest => intro w; rw [continueAllAux_cons]

/-- With at least one attempt allowed, the ContinueAll loop invokes the
inverse action of every listed index, regardless of failures. -/
theorem continueAllAux_calls_mem (cfg : RetryConfig) (env : CompEnv)
    (ctx : GoContext) (hM : 0 ≤ cfg.MaxRetries) :
    ∀ l w i, i ∈ l → i ∈ (continueAllAux cfg env ctx l w).calls := by
  intro l
  induction l with
  | nil => intro w i hi; simp at hi
  | cons a rest ih =>
    intro w i hi
    rw [continueAllAux_cons]
    dsimp only
    rcases List.mem_cons.mp hi with rfl | hir
    · apply List.mem_append_left
      have hpos := compensateStepWithRetry_invocations_pos cfg hM (env.comp i) ctx w
      exact List.mem_replicate.mpr ⟨by omega, rfl⟩
    · exact List.mem_append_right _ (ih _ i hir)

/-- Every index invoked by the ContinueAll loop comes from its index list. -/
theorem continueAllAux_calls_subset (cfg : RetryConfig) (env : CompEnv)
    (ctx : GoContext) :
    ∀ l w j, j ∈ (continueAllAux cfg env ctx l w).calls → j ∈ l := by
  intro l
  induction l with
  | nil => intro w j hj; simp [continueAllAux] at hj
  | cons i rest ih =>
    intro w j hj
    rw [continueAllAux_cons] at hj
    dsimp only at hj
    rcases List.mem_append.mp hj with h1 | h2
    · rcases List.eq_of_mem_replicate h1 with rfl
      exact List.mem_cons_self _ _
    · exact List.mem_cons_of_mem i (ih _ j h2)

/-- The accumulated `compensationErrors` slice enumerates exactly the
processed steps whose retry helper returned an error, in processing order,
each as (step name, stored error, `MaxRetries + 1`). -/
theorem continueAllAux_failures_eq (cfg : RetryConfig) (env : CompEnv)
    (ctx : GoContext) :
    ∀ l w, (continueAllAux cfg env ctx l w).failures =
      (continueAllAux cfg env ctx l w).results.filterMap
        (fun p => p.2.map (fun e => (env.name p.1, some e, cfg.MaxRetries + 1))) := by
  intro l
  induction l with
  | nil => intro w; rfl
  | cons i rest ih =>
    intro w
    rw [continueAllAux_cons]
    dsimp only
    rw [List.filterMap_cons, ih]
    cases hr : (compensateStepWithRetry cfg (env.comp i) ctx w).err with
    | none => rfl
    | some e => rfl

/-- If every listed step's inverse action succeeds on its first attempt, the
ContinueAll loop collects no failures and invokes each listed index exactly
once, in list order. -/
theorem continueAllAux_all_success (cfg : RetryConfig) (env : CompEnv)
    (ctx : GoContext) (hM : 0 ≤ cfg.MaxRetries) :
    ∀ l w, (∀ i ∈ l, env.comp i 0 = none) →
      (continueAllAux cfg env ctx l w).failures = [] ∧
      (continueAllAux cfg env ctx l w).calls = l := by
  intro l
  induction l with
  | nil => intro w _; exact ⟨rfl, rfl⟩
  | cons i rest ih =>
    intro w hall
    rw [continueAllAux_cons]
    dsimp only
    rw [compensateStepWithRetry_first_success cfg hM (env.comp i) ctx w
      (hall i (List.mem_cons_self _ _))]
    dsimp only
    have := ih w (fun j hj => hall j (List.mem_cons_of_mem i hj))
    rw [this.1, this.2]
    simp

/-- One-step unfolding of the `FailFastStrategy.Compensate` loop. -/
theorem failFastAux_cons (env : CompEnv) (i : Nat) (rest cs : List Nat) :
    failFastAux env (i :: rest) cs =
      let cs2 := cs ++ [i]
      match env.comp i 0 with
      | some e =>
        ⟨some (.wrap ("compensation failed for step " ++ env.name i) e),
          [i], cs2, [(cs2, .failed)]⟩
      | none =>
        let t := failFastAux env rest cs2
        ⟨t.err, i :: t.calls, t.compensatedSteps, (cs2, .compensating) :: t.saves⟩ := rfl

/-- In a FailFast run, the final `CompensatedSteps` slice is the starting
slice extended by exactly the indices whose inverse action was invoked, in
invocation order. -/
theorem failFastAux_cs (env : CompEnv) :
    ∀ l cs, (failFastAux env l cs).compensatedSteps =
      cs ++ (failFastAux env l cs).calls := by
  intro l
  induction l with
  | nil => intro cs; simp [failFastAux]
  | cons i rest ih =>
    intro cs
    rw [failFastAux_cons]
    dsimp only
    cases h : env.comp i 0 with
    | some e => rfl
    | none =>
      dsimp only
      rw [ih (cs ++ [i])]
      simp

/-- Every index invoked by the FailFast loop comes from its index list. -/
theorem failFastAux_calls_subset (env : CompEnv) :
    ∀ l cs j, j ∈ (failFastAux env l cs).calls → j ∈ l := by
  intro l
  induction l with
  | nil => intro cs j hj; simp [failFastAux] at hj
  | cons i rest ih =>
    intro cs j hj
    rw [failFastAux_cons] at hj
    dsimp only at hj
    cases h : env.comp i 0 with
    | some e =>
      rw [h] at hj
      dsimp only at hj
      simp at hj
      simp [hj]
    | none =>
      rw [h] at hj
      dsimp only at hj
      rcases List.mem_cons.mp hj with rfl | h2
      · exact List.mem_cons_self _ _
      · exact List.mem_cons_of_mem i (ih _ j h2)

/-- If the index list is strictly decreasing, so is the FailFast invocation
list. -/
theorem failFastAux_calls_pairwise (env : CompEnv) :
    ∀ l cs, l.Pairwise (· > ·) →
      (failFastAux env l cs).calls.Pairwise (· > ·) := by
  intro l
  induction l with
  | nil => intro cs _; simp [failFastAux]
  | cons i rest ih =>
    intro cs hpw
    rw [failFastAux_cons]
    dsimp only
    cases h : env.comp i 0 with
    | some e => simp
    | none =>
      dsimp only
      rw [List.pairwise_cons]
      refine ⟨?_, ih _ (List.pairwise_cons.mp hpw).2⟩
      intro b hb
      exact (List.pairwise_cons.mp hpw).1 b (failFastAux_calls_subset env rest _ b hb)

/-- If every listed step's inverse action succeeds on its first attempt, the
FailFast loop succeeds and invokes each listed index exactly once, in list
order. -/
theorem failFastAux_all_success (env : CompEnv) :
    ∀ l cs, (∀ i ∈ l, env.comp i 0 = none) →
      (failFastAux env l cs).err = none ∧ (failFastAux env l cs).calls = l := by
  intro l
  induction l with
  | nil => intro cs _; exact ⟨rfl, rfl⟩
  | cons i rest ih =>
    intro cs hall
    rw [failFastAux_cons]
    dsimp only
    rw [hall i (List.mem_cons_self _ _)]
    dsimp only
    have := ih (cs ++ [i]) (fun j hj => hall j (List.mem_cons_of_mem i hj))
    rw [this.1, this.2]
    exact ⟨rfl, rfl⟩

/-- Every `CompensatedSteps` slice persisted during a FailFast run is
strictly decreasing, provided the starting slice extended by the index list
is. -/
theorem failFastAux_saves_pairwise (env : CompEnv) :
    ∀ l cs, (cs ++ l).Pairwise (· > ·) →
      ∀ p ∈ (failFastAux env l cs).saves, p.1.Pairwise (· > ·) := by
  intro l
  induction l with
  | nil =>
    intro cs hpw p hp
    simp [failFastAux] at hp
    rw [hp]
    simpa using hpw
  | cons i rest ih =>
    intro cs hpw p hp
    rw [failFastAux_cons] at hp
    dsimp only at hp
    have hcs2 : ((cs ++ [i]) ++ rest).Pairwise (· > ·) := by
      simpa using hpw
    have hhead : (cs ++ [i]).Pairwise (· > ·) :=
      hcs2.sublist (List.sublist_append_left _ _)
    cases h : env.comp i 0 with
    | some e =>
      rw [h] at hp
      dsimp only at hp
      simp at hp
      rw [hp]
      exact hhead
    | none =>
      rw [h] at hp
      dsimp only at hp
      rcases List.mem_cons.mp hp with rfl | h2
      · exact hhead
      · exact ih (cs ++ [i]) hcs2 p h2

/-- The FailFast loop never returns a `*CompensationError`. -/
theorem failFastAux_not_compErr (env : CompEnv) :
    ∀ l cs, IsCompensationError (failFastAux env l cs).err = false := by
  intro l
  induction l with
  | nil => intro cs; rfl
  | cons i rest ih =>
    intro cs
    rw [failFastAux_cons]
    dsimp only
    cases h : env.comp i 0 with
    | some e => rfl
    | none => exact ih _

/-- One-step unfolding of the `Saga.Execute` loop. -/
theorem executeAux_cons (sagaID : String) (total : Nat) (strat : Nat → StratRun)
    (sp : StepSpec) (rest : List StepSpec) (i : Nat) (names : List String) :
    executeAux sagaID total strat (sp :: rest) i names =
      match sp.exec with
      | some e =>
        let sr := strat i
        let finalErr :=
          match sr.err with
          | some ce => GoErr.wrap2 "execution failed, compensation failed" e ce
          | none => GoErr.wrap "saga failed and rolled back" e
        ⟨some finalErr, [i], sr.calls, []⟩
      | none =>
        let names2 := names ++ [sp.name]
        let t := executeAux sagaID total strat rest (i + 1) names2
        ⟨t.err, i :: t.forwardCalls, t.inverseCalls,
          saveStepComplete sagaID total names2 i :: t.saves⟩ := rfl

/-- Pushing an element on a list preserves a known last element. -/
theorem getLast_cons_some {α : Type} (a x : α) (l : List α)
    (h : l.getLast? = some x) : (a :: l).getLast? = some x := by
  cases l with
  | nil => simp at h
  | cons b bs => rw [List.getLast?_cons_cons]; exact h

/-- Every state the `Execute` loop persists has status EXECUTING or COMPLETE
(never FAILED: the `saveSagaFailed` call site is commented out). -/
theorem executeAux_saves_status (sagaID : String) (total : Nat)
    (strat : Nat → StratRun) :
    ∀ steps i names s, s ∈ (executeAux sagaID total strat steps i names).saves →
      s.Status = .executing ∨ s.Status = .complete := by
  intro steps
  induction steps with
  | nil =>
    intro i names s hs
    simp [executeAux] at hs
    rw [hs]
    exact Or.inr rfl
  | cons sp rest ih =>
    intro i names s hs
    rw [executeAux_cons] at hs
    cases h : sp.exec with
    | some e => rw [h] at hs; simp at hs
    | none =>
      rw [h] at hs
      dsimp only at hs
      rcases List.mem_cons.mp hs with rfl | h2
      · exact Or.inl rfl
      · exact ih (i + 1) _ s h2

/-- If every forward action succeeds, the `Execute` loop invokes the forward
actions `i, i+1, …` exactly once each in order, invokes no inverse action,
returns success, and its last persisted state is the COMPLETE state with an
empty compensated list. -/
theorem executeAux_all_success (sagaID : String) (total : Nat)
    (strat : Nat → StratRun) :
    ∀ steps i names, (∀ sp ∈ steps, sp.exec = none) →
      (executeAux sagaID total strat steps i names).err = none ∧
      (executeAux sagaID total strat steps i names).forwardCalls =
        List.range' i steps.length ∧
      (executeAux sagaID total strat steps i names).inverseCalls = [] ∧
      (executeAux sagaID total strat steps i names).saves.getLast? =
        some (saveComplete sagaID total (names ++ steps.map (fun sp => sp.name)) [] total) := by
  intro steps
  induction steps with
  | nil =>
    intro i names _
    refine ⟨rfl, rfl, rfl, ?_⟩
    simp [executeAux]
  | cons sp rest ih =>
    intro i names hall
    rw [executeAux_cons]
    rw [hall sp (List.mem_cons_self _ _)]
    dsimp only
    have := ih (i + 1) (names ++ [sp.name]) (fun q hq => hall q (List.mem_cons_of_mem sp hq))
    refine ⟨this.1, ?_, this.2.2.1, ?_⟩
    · rw [this.2.1]
      rfl
    · rw [getLast_cons_some _ _ _ this.2.2.2]
      simp

/-- If the forward actions before position `pre.length` all succeed and the
next one fails, the `Execute` loop runs the compensation strategy itself for
the failed index, returns the wrapped error (double-wrapped if the strategy
also failed), and persists no state for the failure. -/
theorem executeAux_fail (sagaID : String) (total : Nat) (strat : Nat → StratRun)
    (sp : StepSpec) (post : List StepSpec) (e : GoErr) (he : sp.exec = some e) :
    ∀ pre i names, (∀ q ∈ pre, q.exec = none) →
      (executeAux sagaID total strat (pre ++ sp :: post) i names).err =
        some (match (strat (i + pre.length)).err with
          | some ce => GoErr.wrap2 "execution failed, compensation failed" e ce
          | none => GoErr.wrap "saga failed and rolled back" e) ∧
      (executeAux sagaID total strat (pre ++ sp :: post) i names).inverseCalls =
        (strat (i + pre.length)).calls ∧
      (executeAux sagaID total strat (pre ++ sp :: post) i names).forwardCalls =
        List.range' i (pre.length + 1) := by
  intro pre
  induction pre with
  | nil =>
    intro i names _
    rw [List.nil_append, executeAux_cons, he]
    dsimp only
    refine ⟨rfl, rfl, ?_⟩
    simp [List.range']
  | cons q qre ih =>
    intro i names hall
    rw [List.cons_append, executeAux_cons]
    rw [hall q (List.mem_cons_self _ _)]
    dsimp only
    have := ih (i + 1) (names ++ [q.name]) (fun b hb => hall b (List.mem_cons_of_mem q hb))
    have harith : i + 1 + qre.length = i + (q :: qre).length := by
      simp [List.length_cons]
      omega
    refine ⟨?_, ?_, ?_⟩
    · rw [this.1, harith]
    · rw [this.2.1, harith]
    · rw [this.2.2]
      rfl

/-- Unfolding: the Retry strategy walks `f-1, …, 0`. -/
theorem retryCompensate_def (cfg : RetryConfig) (env : CompEnv) (ctx : GoContext)
    (f : Nat) :
    retryCompensate cfg env ctx f =
      retryCompensateAux cfg env ctx (List.range f).reverse 0 := rfl

/-- Unfolding: the FailFast strategy walks `f-1, …, 0` from an empty slice. -/
theorem failFastCompensate_def (env : CompEnv) (f : Nat) :
    failFastCompensate env f = failFastAux env (List.range f).reverse [] := rfl

/-- Unfolding: the ContinueAll result shares all fields with its loop run
except the top-level error. -/
theorem continueAllCompensate_calls (cfg : RetryConfig) (env : CompEnv)
    (ctx : GoContext) (f : Nat) :
    (continueAllCompensate cfg env ctx f).calls =
      (continueAllAux cfg env ctx (List.range f).reverse 0).calls := rfl

/-- Unfolding: ContinueAll's processed-step record is the loop's. -/
theorem continueAllCompensate_results (cfg : RetryConfig) (env : CompEnv)
    (ctx : GoContext) (f : Nat) :
    (continueAllCompensate cfg env ctx f).results =
      (continueAllAux cfg env ctx (List.range f).reverse 0).results := rfl

/-- Unfolding: ContinueAll's failure record is the loop's. -/
theorem continueAllCompensate_failures (cfg : RetryConfig) (env : CompEnv)
    (ctx : GoContext) (f : Nat) :
    (continueAllCompensate cfg env ctx f).failures =
      (continueAllAux cfg env ctx (List.range f).reverse 0).failures := rfl

/-- Unfolding: ContinueAll returns a `*CompensationError` exactly when the
accumulated failure slice is nonempty (`len(compensationErrors) > 0`). -/
theorem continueAllCompensate_err (cfg : RetryConfig) (env : CompEnv)
    (ctx : GoContext) (f : Nat) :
    (continueAllCompensate cfg env ctx f).err =
      if (continueAllAux cfg env ctx (List.range f).reverse 0).failures.isEmpty
      then none
      else some (.compensationError "one or more compensation steps failed"
        (continueAllAux cfg env ctx (List.range f).reverse 0).failures) := rfl

/-- With a negative `MaxRetries`, the Retry strategy loop reports success
without invoking anything. -/
theorem retryCompensateAux_neg (cfg : RetryConfig) (env : CompEnv)
    (ctx : GoContext) (h : cfg.MaxRetries < 0) :
    ∀ l w, retryCompensateAux cfg env ctx l w = ⟨none, [], [], w⟩ := by
  intro l
  induction l with
  | nil => intro w; rfl
  | cons i rest ih =>
    intro w
    rw [retryCompensateAux_cons]
    dsimp only
    rw [compensateStepWithRetry_neg cfg h (env.comp i) ctx w]
    dsimp only
    rw [ih w]
    simp

/-- With a negative `MaxRetries`, the ContinueAll loop reports success for
every step without invoking anything. -/
theorem continueAllAux_neg (cfg : RetryConfig) (env : CompEnv)
    (ctx : GoContext) (h : cfg.MaxRetries < 0) :
    ∀ l w, (continueAllAux cfg env ctx l w).calls = [] ∧
      (continueAllAux cfg env ctx l w).failures = [] := by
  intro l
  induction l with
  | nil => intro w; exact ⟨rfl, rfl⟩
  | cons i rest ih =>
    intro w
    rw [continueAllAux_cons]
    dsimp only
    rw [compensateStepWithRetry_neg cfg h (env.comp i) ctx w]
    dsimp only
    have := ih w
    rw [this.1, this.2]
    simp

/-- A context cancelled from wait event 0 is observed as done at every
select. -/
theorem ctxDoneAt_zero (w : Nat) : ctxDoneAt ⟨some 0⟩ w = true := by
  simp [ctxDoneAt]

/-- If the context is already cancelled and the first attempt fails (with a
retry still allowed), the helper stops immediately with the wrapped
context-cancellation error after a single invocation and no completed
wait. -/
theorem compensateStepWithRetry_cancel (cfg : RetryConfig)
    (hM : 1 ≤ cfg.MaxRetries) (compi : Nat → Option GoErr)
    (hfail : compi 0 ≠ none) (ctx : GoContext) (w : Nat)
    (hctx : ctxDoneAt ctx w = true) :
    compensateStepWithRetry cfg compi ctx w =
      ⟨some (.wrap "context cancelled during retry" .contextCanceled), 1, [], w⟩ := by
  unfold compensateStepWithRetry
  rw [toNat_retries_succ cfg (by omega)]
  rw [compensateAttempts_succ]
  cases h : compi 0 with
  | none => exact absurd h hfail
  | some e =>
    dsimp only
    rw [if_neg (by omega), if_pos hctx]

/-- The reverse range is strictly decreasing. -/
theorem range_reverse_pairwise (f : Nat) :
    ((List.range f).reverse).Pairwise (· > ·) := by
  rw [List.pairwise_reverse]
  exact List.pairwise_lt_range f

/-- Membership in the reverse range. -/
theorem mem_range_reverse (f j : Nat) : j ∈ (List.range f).reverse ↔ j < f := by
  simp

/-- The reverse range of a successor starts at its largest element. -/
theorem range_reverse_succ (n : Nat) :
    (List.range (n + 1)).reverse = n :: (List.range n).reverse := by
  rw [List.range_succ, List.reverse_append]
  rfl

/-- Claim C10: if `RetryConfig.MaxRetries` is negative, the per-step retry
helper returns success without invoking the step's inverse action even once,
so the Retry and ContinueAll strategies report every step as successfully
compensated (nil error, no failures) while performing no compensation at
all. -/
theorem claim_C10 (cfg : RetryConfig) (h : cfg.MaxRetries < 0)
    (compi : Nat → Option GoErr) (env : CompEnv) (ctx : GoContext)
    (w f : Nat) :
    compensateStepWithRetry cfg compi ctx w = ⟨none, 0, [], w⟩ ∧
    (retryCompensate cfg env ctx f).err = none ∧
    (retryCompensate cfg env ctx f).calls = [] ∧
    (continueAllCompensate cfg env ctx f).err = none ∧
    (continueAllCompensate cfg env ctx f).calls = [] ∧
    (continueAllCompensate cfg env ctx f).failures = [] := by
  have hr := retryCompensateAux_neg cfg env ctx h (List.range f).reverse 0
  have hca := continueAllAux_neg cfg env ctx h (List.range f).reverse 0
  refine ⟨compensateStepWithRetry_neg cfg h compi ctx w, ?_, ?_, ?_, ?_, ?_⟩
  · rw [retryCompensate_def, hr]
  · rw [retryCompensate_def, hr]
  · rw [continueAllCompensate_err, hca.2]
    rfl
  · rw [continueAllCompensate_calls, hca.1]
  · rw [continueAllCompensate_failures, hca.2]

/-- Witness for C10 at a concrete configuration with `MaxRetries = -1`. -/
theorem claim_C10_witness :
    (retryCompensate cfgNeg envFail1 ctxNone 2).calls = [] ∧
    (continueAllCompensate cfgNeg envFail1 ctxNone 2).err = none :=
  ⟨(claim_C10 cfgNeg (by decide) (fun _ => none) envFail1 ctxNone 0 2).2.2.1,
   (claim_C10 cfgNeg (by decide) (fun _ => none) envFail1 ctxNone 0 2).2.2.2.1⟩

/-- Claim C3: for every saga in which all forward actions succeed, `Execute`
invokes each forward action exactly once in insertion order `0 … N-1`,
invokes no inverse action, persists a final state with status COMPLETE and an
empty compensated list, and returns success. -/
theorem claim_C3 (sagaID : String) (steps : List StepSpec)
    (strat : Nat → StratRun) (hall : ∀ sp ∈ steps, sp.exec = none) :
    (executeGo sagaID steps strat).err = none ∧
    (executeGo sagaID steps strat).forwardCalls = List.range steps.length ∧
    (executeGo sagaID steps strat).inverseCalls = [] ∧
    (executeGo sagaID steps strat).saves.getLast? =
      some (saveComplete sagaID steps.length
        (steps.map (fun sp => sp.name)) [] steps.length) := by
  have h := executeAux_all_success sagaID steps.length strat steps 0 [] hall
  unfold executeGo
  refine ⟨h.1, ?_, h.2.2.1, ?_⟩
  · rw [h.2.1, List.range_eq_range']
  · rw [h.2.2.2]
    simp

/-- Witness for C3 on a concrete two-step all-success saga. -/
theorem claim_C3_witness :
    (executeGo "g" stepsOk (failFastStrat envAllOk)).err = none ∧
    (executeGo "g" stepsOk (failFastStrat envAllOk)).inverseCalls = [] :=
  ⟨(claim_C3 "g" stepsOk (failFastStrat envAllOk) (by simp [stepsOk])).1,
   (claim_C3 "g" stepsOk (failFastStrat envAllOk) (by simp [stepsOk])).2.2.1⟩

/-- Claim C4 (code bug): the claim says a forward failure at step `i` is
persisted with `failed_step = i` and `status = FAILED` before `Execute`
returns; in the source the `saveSagaFailed` call is commented out, so no
state with status FAILED is ever persisted by `Execute`, under any saga and
any strategy. -/
theorem claim_C4 (sagaID : String) (steps : List StepSpec)
    (strat : Nat → StratRun) (s : SagaState)
    (hs : s ∈ (executeGo sagaID steps strat).saves) :
    s.Status ≠ SagaStatus.failed := by
  rcases executeAux_saves_status sagaID steps.length strat steps 0 [] s hs with h | h <;>
    simp [h]

/-- Witness for C4: a saga whose second step fails persists only the
EXECUTING checkpoint of its first step; even that state is not FAILED, and
`Execute` still returns an error. -/
theorem claim_C4_witness :
    (executeGo "g" stepsFailB (failFastStrat envAllOk)).err.isSome = true ∧
    (executeGo "g" stepsFailB (failFastStrat envAllOk)).saves =
      [saveStepComplete "g" 2 ["A"] 0] ∧
    (saveStepComplete "g" 2 ["A"] 0).Status ≠ SagaStatus.failed :=
  ⟨rfl, rfl,
   claim_C4 "g" stepsFailB (failFastStrat envAllOk) _
     (by exact List.mem_singleton.mpr rfl)⟩

/-- Claim C2 counterexample: with the default FailFast strategy, a saga
`[A, B]` whose step B fails has the inverse action of step A invoked *inside*
`Execute` (the claim asserts no inverse action runs as part of
`Execute`). -/
theorem claim_C2_counterexample :
    (executeGo "g" stepsFailB (failFastStrat envAllOk)).inverseCalls = [0] ∧
    (executeGo "g" stepsFailB (failFastStrat envAllOk)).err.isSome = true :=
  ⟨rfl, rfl⟩

/-- Claim C2 as amended: when the forward step at position `pre.length`
fails, `Execute` itself invokes the configured compensation strategy for that
failed index before returning; it returns the step error wrapped as
"saga failed and rolled back", or a double wrap of both errors if the
strategy also failed.  There is no caller-driven compensation path. -/
theorem claim_C2 (sagaID : String) (strat : Nat → StratRun)
    (pre post : List StepSpec) (sp : StepSpec) (e : GoErr)
    (he : sp.exec = some e) (hpre : ∀ q ∈ pre, q.exec = none) :
    (executeGo sagaID (pre ++ sp :: post) strat).inverseCalls =
      (strat pre.length).calls ∧
    (executeGo sagaID (pre ++ sp :: post) strat).err =
      some (match (strat pre.length).err with
        | some ce => GoErr.wrap2 "execution failed, compensation failed" e ce
        | none => GoErr.wrap "saga failed and rolled back" e) ∧
    (executeGo sagaID (pre ++ sp :: post) strat).forwardCalls =
      List.range (pre.length + 1) := by
  have h := executeAux_fail sagaID (pre ++ sp :: post).length strat sp post e he pre 0 [] hpre
  unfold executeGo
  rw [Nat.zero_add] at h
  exact ⟨h.2.1, h.1, by rw [h.2.2, List.range_eq_range']⟩

/-- Witness for the amended C2 on the saga `[A, B]` with B failing under
FailFast: the inverse of step 0 is exactly what `Execute` invoked. -/
theorem claim_C2_witness :
    (executeGo "g" ([⟨"A", none⟩] ++ ⟨"B", some (.msg "boom")⟩ :: []) (failFastStrat envAllOk)).inverseCalls =
      (failFastStrat envAllOk 1).calls ∧
    (executeGo "g" ([⟨"A", none⟩] ++ ⟨"B", some (.msg "boom")⟩ :: []) (failFastStrat envAllOk)).forwardCalls =
      List.range 2 :=
  ⟨(claim_C2 "g" (failFastStrat envAllOk) [⟨"A", none⟩] [] ⟨"B", some (.msg "boom")⟩
      (.msg "boom") rfl (by simp)).1,
   (claim_C2 "g" (failFastStrat envAllOk) [⟨"A", none⟩] [] ⟨"B", some (.msg "boom")⟩
      (.msg "boom") rfl (by simp)).2.2⟩

/-- Claim C1 counterexample: with `failed_step = 2` and step 1's inverse
action failing, FailFast invokes only index 1 and never reaches index 0, so
the compensation pass does not invoke inverse actions for all of
`f-1, …, 0` as the claim states. -/
theorem claim_C1_counterexample :
    (failFastCompensate envFail1 2).calls = [1] ∧
    (failFastCompensate envFail1 2).calls ≠ [1, 0] ∧
    0 ∉ (failFastCompensate envFail1 2).calls := by
  refine ⟨rfl, ?_, ?_⟩ <;> decide

/-- Claim C1 as amended: under each built-in strategy the compensation pass
only ever invokes inverse actions of indices `< f` (in particular the failed
step `f` and later steps are never compensated); when `f = 0` no inverse
action is invoked and the pass succeeds; and when every step's inverse action
succeeds on its first attempt (with `MaxRetries ≥ 0` for the retry-based
strategies) the pass invokes exactly the indices `f-1, …, 0`, each once, in
strictly decreasing order, and succeeds.  When an inverse action fails,
FailFast and Retry stop early (lower indices are not invoked); only
ContinueAll continues through all indices. -/
theorem claim_C1 (cfg : RetryConfig) (env : CompEnv) (ctx : GoContext)
    (f : Nat) (hM : 0 ≤ cfg.MaxRetries) :
    (∀ j ∈ (failFastCompensate env f).calls, j < f) ∧
    (∀ j ∈ (retryCompensate cfg env ctx f).calls, j < f) ∧
    (∀ j ∈ (continueAllCompensate cfg env ctx f).calls, j < f) ∧
    (f = 0 →
      (failFastCompensate env f).calls = [] ∧
      (failFastCompensate env f).err = none ∧
      (retryCompensate cfg env ctx f).calls = [] ∧
      (retryCompensate cfg env ctx f).err = none ∧
      (continueAllCompensate cfg env ctx f).calls = [] ∧
      (continueAllCompensate cfg env ctx f).err = none) ∧
    ((∀ i, i < f → env.comp i 0 = none) →
      (failFastCompensate env f).calls = (List.range f).reverse ∧
      (failFastCompensate env f).err = none ∧
      (retryCompensate cfg env ctx f).calls = (List.range f).reverse ∧
      (retryCompensate cfg env ctx f).err = none ∧
      (continueAllCompensate cfg env ctx f).calls = (List.range f).reverse ∧
      (continueAllCompensate cfg env ctx f).err = none) := by
  refine ⟨?_, ?_, ?_, ?_, ?_⟩
  · intro j hj
    exact (mem_range_reverse f j).mp
      (failFastAux_calls_subset env _ _ j ((failFastCompensate_def env f) ▸ hj))
  · intro j hj
    exact (mem_range_reverse f j).mp
      (retryCompensateAux_calls_subset cfg env ctx _ _ j ((retryCompensate_def cfg env ctx f) ▸ hj))
  · intro j hj
    exact (mem_range_reverse f j).mp
      (continueAllAux_calls_subset cfg env ctx _ _ j ((continueAllCompensate_calls cfg env ctx f) ▸ hj))
  · rintro rfl
    exact ⟨rfl, rfl, rfl, rfl, rfl, rfl⟩
  · intro hall
    have hall2 : ∀ i ∈ (List.range f).reverse, env.comp i 0 = none := fun i hi =>
      hall i ((mem_range_reverse f i).mp hi)
    have hff := failFastAux_all_success env (List.range f).reverse [] hall2
    have hre := retryCompensateAux_all_success cfg env ctx hM (List.range f).reverse 0 hall2
    have hca := continueAllAux_all_success cfg env ctx hM (List.range f).reverse 0 hall2
    refine ⟨?_, ?_, ?_, ?_, ?_, ?_⟩
    · rw [failFastCompensate_def]; exact hff.2
    · rw [failFastCompensate_def]; exact hff.1
    · rw [retryCompensate_def, hre]
    · rw [retryCompensate_def, hre]
    · rw [continueAllCompensate_calls]; exact hca.2
    · rw [continueAllCompensate_err, hca.1]; rfl

/-- Witness for the amended C1: with every inverse action succeeding, all
three strategies walk exactly `1, 0` for `f = 2`. -/
theorem claim_C1_witness :
    (failFastCompensate envAllOk 2).calls = (List.range 2).reverse ∧
    (retryCompensate cfgTest envAllOk ctxNone 2).calls = (List.range 2).reverse ∧
    (continueAllCompensate cfgTest envAllOk ctxNone 2).calls = (List.range 2).reverse :=
  ⟨((claim_C1 cfgTest envAllOk ctxNone 2 (by decide)).2.2.2.2 (fun i _ => rfl)).1,
   ((claim_C1 cfgTest envAllOk ctxNone 2 (by decide)).2.2.2.2 (fun i _ => rfl)).2.2.1,
   ((claim_C1 cfgTest envAllOk ctxNone 2 (by decide)).2.2.2.2 (fun i _ => rfl)).2.2.2.2.1⟩

/-- Claim C7 counterexample: in the state-persisting FailFast strategy the
index is appended to `CompensatedSteps` *before* the inverse action is
invoked, so a step whose inverse action failed does appear in
`compensated_steps` — here step 0's inverse fails yet the final persisted
state is `([0], FAILED)`. -/
theorem claim_C7_counterexample :
    envFail0.comp 0 0 ≠ none ∧
    (failFastCompensate envFail0 1).compensatedSteps = [0] ∧
    (failFastCompensate envFail0 1).saves = [([0], SagaStatus.failed)] ∧
    (failFastCompensate envFail0 1).err.isSome = true := by
  refine ⟨?_, rfl, rfl, rfl⟩
  simp [envFail0]

/-- Claim C7 as amended: in every reachable saga state of a FailFast run each
step index appears in `compensated_steps` at most once and indices are
appended in strictly decreasing order; but an index is appended immediately
*before* its inverse action is invoked (the final slice equals the invocation
list), so a step whose inverse action failed does appear in
`compensated_steps`. -/
theorem claim_C7 (env : CompEnv) (f : Nat) :
    (failFastCompensate env f).compensatedSteps = (failFastCompensate env f).calls ∧
    (failFastCompensate env f).compensatedSteps.Pairwise (· > ·) ∧
    (failFastCompensate env f).compensatedSteps.Nodup ∧
    (∀ p ∈ (failFastCompensate env f).saves,
      p.1.Pairwise (· > ·) ∧ p.1.Nodup) := by
  have hcs := failFastAux_cs env (List.range f).reverse []
  rw [List.nil_append] at hcs
  have hpw : (failFastCompensate env f).calls.Pairwise (· > ·) := by
    rw [failFastCompensate_def]
    exact failFastAux_calls_pairwise env _ [] (range_reverse_pairwise f)
  have hcs2 : (failFastCompensate env f).compensatedSteps.Pairwise (· > ·) := by
    rw [failFastCompensate_def] at hpw ⊢
    rw [hcs]
    exact hpw
  refine ⟨by rw [failFastCompensate_def]; exact hcs, hcs2,
    hcs2.imp (fun hab => ne_of_gt hab), ?_⟩
  intro p hp
  have hsp := failFastAux_saves_pairwise env (List.range f).reverse []
    (by simpa using range_reverse_pairwise f) p
    ((failFastCompensate_def env f) ▸ hp)
  exact ⟨hsp, hsp.imp (fun hab => ne_of_gt hab)⟩

/-- Witness for the amended C7 on a run whose step-1 inverse fails at
`f = 2`. -/
theorem claim_C7_witness :
    (failFastCompensate envFail1 2).compensatedSteps = (failFastCompensate envFail1 2).calls ∧
    (failFastCompensate envFail1 2).compensatedSteps.Nodup :=
  ⟨(claim_C7 envFail1 2).1, (claim_C7 envFail1 2).2.2.1⟩

/-- Claim C5: ContinueAll attempts the inverse action (with retries) of every
index `f-1 … 0` regardless of individual failures and never stops early; it
returns a `CompensationError` iff at least one step's compensation
permanently failed (its retry helper returned an error), and that error
enumerates exactly the permanently failed steps with step name, attempts
(`MaxRetries + 1`), and underlying cause; the error is detected by
`IsCompensationError`, and neither the Retry nor the FailFast strategy ever
produces one. -/
theorem claim_C5 (cfg : RetryConfig) (env : CompEnv) (ctx : GoContext)
    (f : Nat) (hM : 0 ≤ cfg.MaxRetries) :
    (continueAllCompensate cfg env ctx f).results.map Prod.fst =
      (List.range f).reverse ∧
    (∀ i, i < f → i ∈ (continueAllCompensate cfg env ctx f).calls) ∧
    (continueAllCompensate cfg env ctx f).failures =
      (continueAllCompensate cfg env ctx f).results.filterMap
        (fun p => p.2.map (fun e => (env.name p.1, some e, cfg.MaxRetries + 1))) ∧
    ((continueAllCompensate cfg env ctx f).err = none ↔
      (continueAllCompensate cfg env ctx f).failures = []) ∧
    (∀ e, (continueAllCompensate cfg env ctx f).err = some e →
      e = .compensationError "one or more compensation steps failed"
        (continueAllCompensate cfg env ctx f).failures ∧
      IsCompensationError (continueAllCompensate cfg env ctx f).err = true) ∧
    IsCompensationError (retryCompensate cfg env ctx f).err = false ∧
    IsCompensationError (failFastCompensate env f).err = false := by
  refine ⟨?_, ?_, ?_, ?_, ?_, ?_, ?_⟩
  · rw [continueAllCompensate_results]
    exact continueAllAux_results_map cfg env ctx _ 0
  · intro i hi
    rw [continueAllCompensate_calls]
    exact continueAllAux_calls_mem cfg env ctx hM _ 0 i ((mem_range_reverse f i).mpr hi)
  · rw [continueAllCompensate_failures, continueAllCompensate_results]
    exact continueAllAux_failures_eq cfg env ctx _ 0
  · rw [continueAllCompensate_err, continueAllCompensate_failures]
    cases h : (continueAllAux cfg env ctx (List.range f).reverse 0).failures with
    | nil => simp
    | cons a l => simp
  · intro e he
    rw [continueAllCompensate_err] at he ⊢
    rw [continueAllCompensate_failures]
    cases h : (continueAllAux cfg env ctx (List.range f).reverse 0).failures with
    | nil => rw [h] at he; simp at he
    | cons a l =>
      rw [h] at he
      simp only [List.isEmpty_cons, Bool.false_eq_true, if_false] at he
      rcases Option.some_inj.mp he with rfl
      exact ⟨rfl, rfl⟩
  · rw [retryCompensate_def]
    exact retryCompensateAux_not_compErr cfg env ctx _ 0
  · rw [failFastCompensate_def]
    exact failFastAux_not_compErr env _ []

/-- Witness for C5 at a run whose step-1 inverse permanently fails: the
failure list enumerates that step, detected by the discriminator. -/
theorem claim_C5_witness :
    (continueAllCompensate cfgTest envFail1 ctxNone 2).results.map Prod.fst =
      (List.range 2).reverse ∧
    (continueAllCompensate cfgTest envFail1 ctxNone 2).failures =
      (continueAllCompensate cfgTest envFail1 ctxNone 2).results.filterMap
        (fun p => p.2.map (fun e => (envFail1.name p.1, some e, cfgTest.MaxRetries + 1))) :=
  ⟨(claim_C5 cfgTest envFail1 ctxNone 2 (by decide)).1,
   (claim_C5 cfgTest envFail1 ctxNone 2 (by decide)).2.2.1⟩

/-- Claim C6: under the Retry strategy with `MaxRetries ≥ 0`, each step's
inverse action is invoked at most `MaxRetries + 1` times in total; and if,
with no cancellation, all `MaxRetries + 1` attempts of a reached step `j`
fail (each step above it succeeding), the strategy returns an error
immediately: step `j` is attempted exactly `MaxRetries + 1` times and no
inverse action of a lower index is ever invoked. -/
theorem claim_C6 (cfg : RetryConfig) (env : CompEnv) (ctx : GoContext)
    (f : Nat) (hM : 0 ≤ cfg.MaxRetries) :
    (∀ i, ((retryCompensate cfg env ctx f).calls.count i : Int) ≤
      cfg.MaxRetries + 1) ∧
    (∀ j, j < f → (∀ k, env.comp j k ≠ none) →
      (∀ i, j < i → i < f → env.comp i 0 = none) → ctx.doneFrom = none →
      (retryCompensate cfg env ctx f).err.isSome = true ∧
      ((retryCompensate cfg env ctx f).calls.count j : Int) = cfg.MaxRetries + 1 ∧
      (∀ m, m < j → m ∉ (retryCompensate cfg env ctx f).calls)) := by
  constructor
  · intro i
    rw [retryCompensate_def]
    have := retryCompensateAux_count cfg env ctx (List.range f).reverse 0 i
      (by simpa using (List.nodup_range f))
    have ht : ((cfg.MaxRetries + 1).toNat : Int) = cfg.MaxRetries + 1 :=
      Int.toNat_of_nonneg (by omega)
    omega
  · intro j hj hjf hup hc
    have h := retryCompensateAux_fail_stop cfg env ctx hM hc j hjf
      (List.range f).reverse 0 (range_reverse_pairwise f)
      ((mem_range_reverse f j).mpr hj)
      (fun i hi hgt => hup i hgt ((mem_range_reverse f i).mp hi))
    have ht : ((cfg.MaxRetries + 1).toNat : Int) = cfg.MaxRetries + 1 :=
      Int.toNat_of_nonneg (by omega)
    rw [retryCompensate_def]
    exact ⟨h.1, by omega, h.2.1⟩

/-- Witness for C6 on a run whose step-1 inverse permanently fails at
`f = 2` under one allowed retry: two attempts on step 1, step 0 never
invoked. -/
theorem claim_C6_witness :
    ((retryCompensate cfgTest envFail1 ctxNone 2).calls.count 1 : Int) =
      cfgTest.MaxRetries + 1 ∧
    0 ∉ (retryCompensate cfgTest envFail1 ctxNone 2).calls :=
  ⟨((claim_C6 cfgTest envFail1 ctxNone 2 (by decide)).2 1 (by decide)
      (fun k => by simp [envFail1])
      (fun i h1 h2 => by omega) rfl).2.1,
   ((claim_C6 cfgTest envFail1 ctxNone 2 (by decide)).2 1 (by decide)
      (fun k => by simp [envFail1])
      (fun i h1 h2 => by omega) rfl).2.2 0 (by decide)⟩

/-- Claim C8 counterexample: when `InitialBackoff` exceeds `MaxBackoff`, the
0-th backoff wait is the uncapped `InitialBackoff`, which is strictly larger
than `min(MaxBackoff, InitialBackoff · BackoffMultiple^0)` — the claimed
bound fails at k = 0. -/
theorem claim_C8_counterexample :
    (compensateStepWithRetry cfgCap (fun _ => some (.msg "x")) ctxNone 0).waits.getD 0 0 =
      cfgCap.InitialBackoff ∧
    ¬ ((cfgCap.InitialBackoff : ℚ) ≤
        min (cfgCap.MaxBackoff : ℚ)
          ((cfgCap.InitialBackoff : ℚ) * cfgCap.BackoffMultiple ^ 0)) := by
  constructor
  · rfl
  · norm_num [cfgCap]

/-- Claim C8 as amended: for a nonnegative configuration
(`InitialBackoff, MaxBackoff ≥ 0`, `BackoffMultiple ≥ 0`), the waits of one
retry run follow the backoff sequence; its 0-th value is exactly
`InitialBackoff` (uncapped — the cap is applied only after a wait), and every
later value is bounded by `min(MaxBackoff, InitialBackoff · BackoffMultipleᵏ)`;
hence every wait from the first retry onward satisfies the claimed bound, and
when `InitialBackoff ≤ MaxBackoff` the claimed bound holds for all k. -/
theorem claim_C8 (cfg : RetryConfig) (compi : Nat → Option GoErr)
    (ctx : GoContext) (w : Nat) (h0 : 0 ≤ cfg.InitialBackoff)
    (h1 : 0 ≤ cfg.MaxBackoff) (h2 : 0 ≤ cfg.BackoffMultiple) :
    (∀ j, j < (compensateStepWithRetry cfg compi ctx w).waits.length →
      (compensateStepWithRetry cfg compi ctx w).waits.getD j 0 = backoffIter cfg j) ∧
    backoffIter cfg 0 = cfg.InitialBackoff ∧
    (∀ k, 1 ≤ k → backoffIter cfg k ≤ cfg.MaxBackoff ∧
      (backoffIter cfg k : ℚ) ≤ (cfg.InitialBackoff : ℚ) * cfg.BackoffMultiple ^ k) ∧
    (∀ j, 1 ≤ j → j < (compensateStepWithRetry cfg compi ctx w).waits.length →
      ((compensateStepWithRetry cfg compi ctx w).waits.getD j 0 : ℚ) ≤
        min (cfg.MaxBackoff : ℚ)
          ((cfg.InitialBackoff : ℚ) * cfg.BackoffMultiple ^ j)) := by
  have hbound : ∀ k, 1 ≤ k → backoffIter cfg k ≤ cfg.MaxBackoff ∧
      (backoffIter cfg k : ℚ) ≤ (cfg.InitialBackoff : ℚ) * cfg.BackoffMultiple ^ k := by
    intro k hk
    obtain ⟨m, rfl⟩ : ∃ m, k = m + 1 := ⟨k - 1, by omega⟩
    constructor
    · exact nextBackoff_le_max cfg (backoffFrom cfg cfg.InitialBackoff m)
    · exact backoffFrom_le_pow cfg h2 h1 cfg.InitialBackoff h0 (m + 1)
  refine ⟨fun j hj => compensateStepWithRetry_waits cfg compi ctx w j hj, rfl,
    hbound, ?_⟩
  intro j hj1 hj2
  rw [compensateStepWithRetry_waits cfg compi ctx w j hj2]
  refine le_min ?_ (hbound j hj1).2
  exact_mod_cast (hbound j hj1).1

/-- Witness for the amended C8 with the small test configuration. -/
theorem claim_C8_witness :
    backoffIter cfgTest 0 = cfgTest.InitialBackoff ∧
    backoffIter cfgTest 1 ≤ cfgTest.MaxBackoff :=
  ⟨(claim_C8 cfgTest (fun _ => none) ctxNone 0 (by decide) (by decide)
      (by norm_num [cfgTest])).2.1,
   ((claim_C8 cfgTest (fun _ => none) ctxNone 0 (by decide) (by decide)
      (by norm_num [cfgTest])).2.2.1 1 (by decide)).1⟩

/-- Claim C9 counterexample: the context is cancelled during step 1's first
backoff, yet ContinueAll goes on to invoke step 0's inverse action and
returns a `CompensationError` (detected by the discriminator) rather than a
distinct context-cancelled error — cancellation does not abort the reverse
pass and is folded into a step-level compensation error. -/
theorem claim_C9_counterexample :
    (continueAllCompensate cfgTest envFail1 ctxNow 2).calls = [1, 0] ∧
    IsCompensationError (continueAllCompensate cfgTest envFail1 ctxNow 2).err = true :=
  ⟨rfl, rfl⟩

/-- Claim C9 as amended: if the context is cancelled while the Retry strategy
waits in a backoff, that strategy stops immediately — the cancelled step is
not retried, no earlier inverse action is invoked, and the returned error
wraps the context-cancellation cause (it is never a `CompensationError`).
The ContinueAll strategy, however, only stops the current step's retries: it
continues to every earlier index, invoking their inverse actions, and returns
a `CompensationError` that absorbs the context-cancellation as a step
failure. -/
theorem claim_C9 (cfg : RetryConfig) (env : CompEnv) (f : Nat)
    (hM : 1 ≤ cfg.MaxRetries) (hf : 1 ≤ f)
    (hfail : env.comp (f - 1) 0 ≠ none) :
    (retryCompensate cfg env ⟨some 0⟩ f).calls = [f - 1] ∧
    (retryCompensate cfg env ⟨some 0⟩ f).err =
      some (.wrap ("compensation failed for step " ++ env.name (f - 1) ++ " after " ++
          toString (cfg.MaxRetries + 1) ++ " attempts")
        (.wrap "context cancelled during retry" .contextCanceled)) ∧
    IsCompensationError (retryCompensate cfg env ⟨some 0⟩ f).err = false ∧
    (∀ i, i < f → i ∈ (continueAllCompensate cfg env ⟨some 0⟩ f).calls) ∧
    (continueAllCompensate cfg env ⟨some 0⟩ f).err =
      some (.compensationError "one or more compensation steps failed"
        (continueAllCompensate cfg env ⟨some 0⟩ f).failures) ∧
    IsCompensationError (continueAllCompensate cfg env ⟨some 0⟩ f).err = true := by
  obtain ⟨n, rfl⟩ : ∃ n, f = n + 1 := ⟨f - 1, by omega⟩
  simp only [Nat.add_sub_cancel] at hfail ⊢
  have hcan := compensateStepWithRetry_cancel cfg hM (env.comp n) hfail ⟨some 0⟩ 0
    (ctxDoneAt_zero 0)
  have hretry : retryCompensate cfg env ⟨some 0⟩ (n + 1) =
      ⟨some (.wrap ("compensation failed for step " ++ env.name n ++ " after " ++
          toString (cfg.MaxRetries + 1) ++ " attempts")
        (.wrap "context cancelled during retry" .contextCanceled)),
        [n], [], 0⟩ := by
    rw [retryCompensate_def, range_reverse_succ, retryCompensateAux_cons]
    dsimp only
    rw [hcan]
    rfl
  have hfl : (continueAllAux cfg env ⟨some 0⟩ (List.range (n + 1)).reverse 0).failures =
      (env.name n, some (.wrap "context cancelled during retry" .contextCanceled),
        cfg.MaxRetries + 1) ::
      (continueAllAux cfg env ⟨some 0⟩ (List.range n).reverse 0).failures := by
    rw [range_reverse_succ, continueAllAux_cons]
    dsimp only
    rw [hcan]
    rfl
  refine ⟨?_, ?_, ?_, ?_, ?_, ?_⟩
  · rw [hretry]
  · rw [hretry]
  · rw [hretry]
    rfl
  · intro i hi
    rw [continueAllCompensate_calls]
    exact continueAllAux_calls_mem cfg env ⟨some 0⟩ (by omega) _ 0 i
      ((mem_range_reverse (n + 1) i).mpr hi)
  · rw [continueAllCompensate_err, continueAllCompensate_failures, hfl]
    simp
  · rw [continueAllCompensate_err, hfl]
    simp [IsCompensationError]

/-- Witness for the amended C9: one retry allowed, step 1's inverse failing,
context cancelled from the start, `f = 2`. -/
theorem claim_C9_witness :
    (retryCompensate cfgTest envFail1 ⟨some 0⟩ 2).calls = [2 - 1] ∧
    IsCompensationError (continueAllCompensate cfgTest envFail1 ⟨some 0⟩ 2).err = true :=
  ⟨(claim_C9 cfgTest envFail1 2 (by decide) (by decide) (by simp [envFail1])).1,
   (claim_C9 cfgTest envFail1 2 (by decide) (by decide) (by simp [envFail1])).2.2.2.2.2⟩
